import Mathlib

/-!
The k-means clustering notebook: `find_clusters`

A shallow embedding of the `find_clusters` function of
`k-means_clustering_GMM-checkpoint.ipynb` and of the library routine
`sklearn.metrics.pairwise_distances_argmin` that it calls.

Real (floating point) scalars are modelled as `Option ℚ`: `some q` is a finite
value, `none` is a non-finite value (NaN or an infinity).  All arithmetic the
notebook performs on finite data is exact in this idealisation.  A `none` can
arise inside a run only as the NaN produced by `X[labels == i].mean(0)` on an
empty selection; numpy elementwise `==` never equates it with anything, and the
sklearn input check (`check_array`) rejects arrays containing it.
-/

/-- A float scalar: `some q` is finite, `none` is non-finite (NaN/inf). -/
abbrev Val : Type := Option ℚ

/-- A row of the data array: one point (or one centroid). -/
abbrev Point : Type := List Val

/-- All coordinates of a row are finite. -/
def finiteP (p : Point) : Bool := p.all Option.isSome

/-- All entries of a 2-d array are finite (what sklearn `_assert_all_finite`
checks). -/
def finiteM (A : List Point) : Bool := A.all finiteP

/-- The rational coordinates of a row (`none` projects to `0`; only applied to
rows that passed the finiteness check). -/
def toQ (p : Point) : List ℚ := p.map (fun v => v.getD 0)

/-- Squared Euclidean distance between two coordinate rows.  (`np.argmin` over
squared distances equals `np.argmin` over Euclidean distances, the square root
being monotone, so distances are kept squared throughout.) -/
def sqDistQ (p q : List ℚ) : ℚ := (List.zipWith (fun a b => (a - b) ^ 2) p q).sum

/-- Model of `np.argmin`: index of the first minimal element (ties broken by lowest
index, numpy's documented first-occurrence rule). -/
def argminIdx : List ℚ → Nat
  | [] => 0
  | [_] => 0
  | a :: b :: rest =>
    if (b :: rest).getD (argminIdx (b :: rest)) 0 < a then argminIdx (b :: rest) + 1 else 0

/-- Failure outcomes of a clustering run.  `valueErrorNonFinite` and
`valueErrorEmpty` are the Python `ValueError`s raised by sklearn `check_array`
inside `pairwise_distances_argmin` (the only failures the notebook code can
produce).  `invalidInput`, `invalidConfiguration` and `degenerateCluster` are
modelled from the spec: the typed failure taxonomy of spec §7, which the
notebook never constructs; they are present so that the observed behaviour can
be compared against that taxonomy. -/
inductive KError : Type
  | valueErrorNonFinite
  | valueErrorEmpty
  | invalidInput
  | invalidConfiguration
  | degenerateCluster
  deriving DecidableEq

/-- sklearn `check_array` as it runs inside `pairwise_distances_argmin`:
reject non-finite entries (`force_all_finite`), then arrays with 0 samples,
then arrays with 0 features, in that order. -/
def check_array (A : List Point) : Except KError Unit :=
  if finiteM A = false then .error .valueErrorNonFinite
  else if A = [] then .error .valueErrorEmpty
  else if (A.headD []).length = 0 then .error .valueErrorEmpty
  else .ok ()

/-- The label array `pairwise_distances_argmin` computes once its checks have
passed: for each row of `X`, the first index of a nearest row of `C`. -/
def assignLabels (X C : List Point) : List Nat :=
  X.map (fun x => argminIdx (C.map (fun c => sqDistQ (toQ x) (toQ c))))

/-- Model of `sklearn.metrics.pairwise_distances_argmin(X, Y)`: validate both arrays
with `check_array` (X first), then return the per-row argmin of Euclidean
distances. -/
def pairwise_distances_argmin (X Y : List Point) : Except KError (List Nat) :=
  match check_array X with
  | .error e => .error e
  | .ok _ =>
    match check_array Y with
    | .error e => .error e
    | .ok _ => .ok (assignLabels X Y)

/-- The selection `X[labels == k]`: the rows of `X` whose label is `k`, in order. -/
def selectLabeled (X : List Point) (labels : List Nat) (k : Nat) : List Point :=
  ((X.zip labels).filter (fun pl => pl.2 == k)).map (fun pl => pl.1)

/-- Componentwise arithmetic mean of a list of rational rows
(`.mean(0)` on a nonempty selection), at dimension `D`. -/
def qmean (ps : List (List ℚ)) (D : Nat) : List ℚ :=
  (List.range D).map (fun d => (ps.map (fun p => p.getD d 0)).sum / (ps.length : ℚ))

/-- The update `X[labels == i].mean(0)`: the componentwise mean of the selected rows; on
an empty selection numpy produces a row of NaNs (`none`). -/
def clusterMean (pts : List Point) (D : Nat) : Point :=
  if pts = [] then List.replicate D none
  else (qmean (pts.map toQ) D).map some

/-- The array `np.array([X[labels == i].mean(0) for i in range(n_clusters)])`. -/
def updateCenters (X : List Point) (K D : Nat) (labels : List Nat) : List Point :=
  (List.range K).map (fun k => clusterMean (selectLabeled X labels k) D)

/-- numpy elementwise `==` on two float scalars: `False` whenever either side
is NaN (the only non-finite value reaching this comparison in a run). -/
def valEq (a b : Val) : Bool :=
  match a, b with
  | some x, some y => decide (x = y)
  | _, _ => false

/-- numpy elementwise `==` on two rows, conjoined. -/
def rowEq (p q : Point) : Bool :=
  decide (p.length = q.length) && (List.zipWith valEq p q).all id

/-- The test `np.all(centers == new_centers)`: `False` outright on a shape mismatch
(numpy of the notebook's era returns scalar `False` for an incomparable
elementwise `==`), else the conjunction of all elementwise comparisons. -/
def centersEq (A B : List Point) : Bool :=
  decide (A.length = B.length) && (List.zipWith rowEq A B).all id

/-- The `while True:` loop of `find_clusters`, with explicit fuel (the source
loop is unbounded; `none` means the loop is still running after `fuel` passes).
The returned `Nat` counts the passes executed, so that claims about iteration
counts can be stated; the source itself returns only `(centers, labels)`. -/
def kloop (X : List Point) (K D : Nat) (centers : List Point) (iters : Nat) :
    Nat → Option (Except KError (List Point × List Nat × Nat))
  | 0 => none
  | fuel + 1 =>
    match pairwise_distances_argmin X centers with
    | .error e => some (.error e)
    | .ok labels =>
      let newCenters := updateCenters X K D labels
      if centersEq centers newCenters then some (.ok (centers, labels, iters + 1))
      else kloop X K D newCenters (iters + 1) fuel

/-- Insert `x` at position `n` (used by the modelled shuffle). -/
def insertAt (n : Nat) (x : Nat) (l : List Nat) : List Nat :=
  l.take n ++ x :: l.drop n

/-- One step of a 64-bit linear congruential generator. -/
def lcgStep (s : Nat) : Nat := (6364136223846793005 * s + 1442695040888963407) % 2 ^ 64

/-- Modelled from the spec: `np.random.RandomState(rseed).permutation(N)` is an
external library routine (the numpy Mersenne-Twister shuffle), absent from this
repository; the spec requires only "a seeded pseudo-random permutation
(deterministic given the seed)".  It is modelled as a deterministic seeded
shuffle: each element is inserted at an LCG-driven position. -/
def shuffle : Nat → List Nat → List Nat
  | _, [] => []
  | s, x :: xs => insertAt (s % (xs.length + 1)) x (shuffle (lcgStep s) xs)

/-- Modelled from the spec: the seeded index permutation of `0, …, N-1`. -/
def permutation (rseed N : Nat) : List Nat :=
  shuffle (lcgStep (rseed + 1)) (List.range N)

/-- The slice `rng.permutation(X.shape[0])[:n_clusters]`: the first `n_clusters` entries
of the seeded permutation (Python slicing truncates silently when
`n_clusters` exceeds the length). -/
def initIndices (rseed N K : Nat) : List Nat := (permutation rseed N).take K

/-- The initialization `centers = X[i]`: the rows of `X` at the initial indices. -/
def initCentroids (X : List Point) (n_clusters rseed : Nat) : List Point :=
  (initIndices rseed X.length n_clusters).map (fun i => X.getD i [])

/-- The function `find_clusters(X, n_clusters, rseed)`: seeded initialization, then the
assignment/update loop, with explicit fuel standing for the unbounded
`while True`. -/
def find_clusters (X : List Point) (n_clusters rseed fuel : Nat) :
    Option (Except KError (List Point × List Nat × Nat)) :=
  kloop X n_clusters (X.headD []).length (initCentroids X n_clusters rseed) 0 fuel

/-- Version of `find_clusters` with the ambient process state threaded explicitly
(`g` stands for the state of numpy's global RNG, the only process state the
source could have touched).  The source constructs a fresh local
`RandomState(rseed)` instead of using the global generator, so the call neither
reads nor writes `g`. -/
def find_clusters_global (g : Nat) (X : List Point) (n_clusters rseed fuel : Nat) :
    Option (Except KError (List Point × List Nat × Nat)) × Nat :=
  (find_clusters X n_clusters rseed fuel, g)

/-- Within-cluster sum of squared distances of a labeling against a centroid
array: `Σ_j ‖x_j − centers[labels_j]‖²`. -/
def ssd : List Point → List Point → List Nat → ℚ
  | [], _, _ => 0
  | _ :: _, _, [] => 0
  | x :: X, C, l :: L => sqDistQ (toQ x) (toQ (C.getD l [])) + ssd X C L

/-- Cost of one cluster against one centroid: `Σ_{p ∈ pts} ‖p − c‖²`. -/
def clusterCost (pts : List Point) (c : Point) : ℚ :=
  (pts.map (fun p => sqDistQ (toQ p) (toQ c))).sum

/-! ## List helpers -/

theorem getD_map_of_lt {α β : Type} (f : α → β) (l : List α) (i : Nat) (d : α) (d' : β)
    (h : i < l.length) : (l.map f).getD i d' = f (l.getD i d) := by
  induction l generalizing i with
  | nil => simp at h
  | cons a t ih =>
    cases i with
    | zero => simp
    | succ n =>
      simp only [List.map_cons, List.getD_cons_succ]
      exact ih n (by simpa using Nat.lt_of_succ_lt_succ h)

theorem getD_mem_of_lt {α : Type} (l : List α) (i : Nat) (d : α) (h : i < l.length) :
    l.getD i d ∈ l := by
  rw [List.getD_eq_getElem l d h]
  exact List.getElem_mem h

theorem getD_range_map {β : Type} (g : Nat → β) (D i : Nat) (dflt : β) (h : i < D) :
    ((List.range D).map g).getD i dflt = g i := by
  rw [getD_map_of_lt g _ i 0 dflt (by simpa using h)]
  congr 1
  rw [List.getD_eq_getElem _ 0 (by simpa using h)]
  exact List.getElem_range i _

/-! ## `np.argmin` lemmas: the returned index is in range, attains the minimum,
and is the first index doing so (lowest-index tie-breaking). -/

theorem argminIdx_lt_length : ∀ (l : List ℚ), l ≠ [] → argminIdx l < l.length
  | [], h => absurd rfl h
  | [_], _ => by simp [argminIdx]
  | _ :: b :: rest, _ => by
    simp only [argminIdx]
    split
    · simpa using argminIdx_lt_length (b :: rest) (by simp)
    · simp

theorem argminIdx_le : ∀ (l : List ℚ) (i : Nat), i < l.length →
    l.getD (argminIdx l) 0 ≤ l.getD i 0
  | [], i, h => by simp at h
  | [x], i, h => by
    have hi : i = 0 := by simp at h; omega
    subst hi
    simp [argminIdx]
  | a :: b :: rest, i, h => by
    simp only [argminIdx]
    split
    · rename_i hlt
      cases i with
      | zero =>
        simp only [List.getD_cons_succ, List.getD_cons_zero]
        exact le_of_lt hlt
      | succ n =>
        simp only [List.getD_cons_succ]
        exact argminIdx_le (b :: rest) n (by simpa using Nat.lt_of_succ_lt_succ h)
    · rename_i hge
      cases i with
      | zero => simp
      | succ n =>
        simp only [List.getD_cons_zero, List.getD_cons_succ]
        exact le_trans (not_lt.mp hge)
          (argminIdx_le (b :: rest) n (by simpa using Nat.lt_of_succ_lt_succ h))

theorem argminIdx_first : ∀ (l : List ℚ) (i : Nat), i < argminIdx l →
    l.getD (argminIdx l) 0 < l.getD i 0
  | [], i, h => by simp [argminIdx] at h
  | [x], i, h => by simp [argminIdx] at h
  | a :: b :: rest, i, h => by
    simp only [argminIdx] at h ⊢
    split
    · rename_i hlt
      cases i with
      | zero =>
        simp only [List.getD_cons_succ, List.getD_cons_zero]
        exact hlt
      | succ n =>
        simp only [List.getD_cons_succ]
        refine argminIdx_first (b :: rest) n ?_
        rw [if_pos hlt] at h
        omega
    · rename_i hge
      rw [if_neg hge] at h
      omega

/-! ## Sum helpers -/

theorem list_range_map_sum (n : Nat) (f : Nat → ℚ) :
    ((List.range n).map f).sum = ∑ d in Finset.range n, f d := by
  induction n with
  | zero => simp
  | succ m ih => rw [List.range_succ]; simp [ih, Finset.sum_range_succ]

theorem sum_map_finset_sum {α : Type} (l : List α) (n : Nat) (f : α → Nat → ℚ) :
    (l.map (fun x => ∑ d in Finset.range n, f x d)).sum
      = ∑ d in Finset.range n, (l.map (fun x => f x d)).sum := by
  induction l with
  | nil => simp
  | cons a t ih => simp [ih, Finset.sum_add_distrib]

theorem sqDistQ_eq_sum : ∀ (p q : List ℚ), q.length = p.length →
    sqDistQ p q = ∑ d in Finset.range p.length, (p.getD d 0 - q.getD d 0) ^ 2
  | [], [], _ => by simp [sqDistQ]
  | [], b :: q, h => by simp at h
  | a :: p, [], h => by simp at h
  | a :: p, b :: q, h => by
    have ih := sqDistQ_eq_sum p q (by simpa using h)
    simp only [sqDistQ, List.zipWith_cons_cons, List.sum_cons, List.length_cons] at ih ⊢
    rw [Finset.sum_range_succ']
    simp only [List.getD_cons_succ, List.getD_cons_zero]
    rw [← ih]
    ring

/-! ## The mean minimises the sum of squared deviations (1-dimensional). -/

theorem sq_dev_expand : ∀ (l : List ℚ) (c μ : ℚ),
    (l.map (fun a => (a - c) ^ 2)).sum
      = (l.map (fun a => (a - μ) ^ 2)).sum + 2 * (μ - c) * (l.sum - l.length * μ)
        + l.length * (μ - c) ^ 2
  | [], c, μ => by simp
  | a :: t, c, μ => by
    have ih := sq_dev_expand t c μ
    simp only [List.map_cons, List.sum_cons, List.length_cons]
    rw [ih]
    push_cast
    ring

theorem one_dim_mean_le (l : List ℚ) (c : ℚ) (h : l ≠ []) :
    (l.map (fun a => (a - l.sum / l.length) ^ 2)).sum ≤ (l.map (fun a => (a - c) ^ 2)).sum := by
  have hn : (l.length : ℚ) ≠ 0 := by
    have := List.length_pos.mpr h
    exact_mod_cast Nat.pos_iff_ne_zero.mp this
  have hμ : l.sum - l.length * (l.sum / l.length) = 0 := by field_simp
  rw [sq_dev_expand l c (l.sum / l.length), hμ]
  have h2 : 0 ≤ (l.length : ℚ) * (l.sum / l.length - c) ^ 2 := by positivity
  linarith

/-! ## `selectLabeled` and `ssd` structure lemmas -/

theorem selectLabeled_nil (labels : List Nat) (k : Nat) :
    selectLabeled [] labels k = [] := by
  simp [selectLabeled]

theorem selectLabeled_cons (x : Point) (X : List Point) (l : Nat) (L : List Nat) (k : Nat) :
    selectLabeled (x :: X) (l :: L) k
      = if l = k then x :: selectLabeled X L k else selectLabeled X L k := by
  simp only [selectLabeled, List.zip_cons_cons, List.filter_cons]
  by_cases h : l = k
  · simp [h]
  · simp [h]

theorem selectLabeled_subset (X : List Point) (labels : List Nat) (k : Nat) :
    ∀ p ∈ selectLabeled X labels k, p ∈ X := by
  intro p hp
  simp only [selectLabeled, List.mem_map, List.mem_filter] at hp
  obtain ⟨⟨q, l⟩, ⟨hmem, _⟩, hq⟩ := hp
  subst hq
  exact (List.of_mem_zip hmem).1

theorem selectLabeled_empty_of_ge (k : Nat) : ∀ (X : List Point) (labels : List Nat),
    (∀ l ∈ labels, l < k) → selectLabeled X labels k = []
  | [], labels, _ => by simp [selectLabeled]
  | x :: X, [], _ => by simp [selectLabeled]
  | x :: X, l :: L, h => by
    rw [selectLabeled_cons]
    have hl : l < k := h l (by simp)
    rw [if_neg (by omega)]
    exact selectLabeled_empty_of_ge k X L (fun m hm => h m (by simp [hm]))

theorem clusterCost_cons (x : Point) (pts : List Point) (c : Point) :
    clusterCost (x :: pts) c = sqDistQ (toQ x) (toQ c) + clusterCost pts c := by
  simp [clusterCost]

/-- Regrouping: the within-cluster sum of squares equals the sum over clusters
of each cluster's cost against its own centroid. -/
theorem ssd_partition : ∀ (X : List Point) (labels : List Nat) (C : List Point) (K : Nat),
    labels.length = X.length → (∀ l ∈ labels, l < K) →
    ssd X C labels = ∑ k in Finset.range K, clusterCost (selectLabeled X labels k) (C.getD k [])
  | [], [], C, K, _, _ => by
    simp [ssd, selectLabeled_nil, clusterCost]
  | [], l :: L, C, K, hlen, _ => by simp at hlen
  | x :: X, [], C, K, hlen, _ => by simp at hlen
  | x :: X, l :: L, C, K, hlen, hlt => by
    have ih := ssd_partition X L C K (by simpa using hlen) (fun m hm => hlt m (by simp [hm]))
    have hl : l < K := hlt l (by simp)
    simp only [ssd]
    rw [ih]
    have hsplit : ∀ k ∈ Finset.range K,
        clusterCost (selectLabeled (x :: X) (l :: L) k) (C.getD k [])
          = clusterCost (selectLabeled X L k) (C.getD k [])
            + (if l = k then sqDistQ (toQ x) (toQ (C.getD k [])) else 0) := by
      intro k _
      rw [selectLabeled_cons]
      by_cases h : l = k
      · rw [if_pos h, if_pos h, clusterCost_cons]; ring
      · rw [if_neg h, if_neg h]; ring
    rw [Finset.sum_congr rfl hsplit, Finset.sum_add_distrib]
    have hite : (∑ k in Finset.range K,
        if l = k then sqDistQ (toQ x) (toQ (C.getD k [])) else 0)
          = sqDistQ (toQ x) (toQ (C.getD l [])) := by
      rw [Finset.sum_ite_eq]
      simp [Finset.mem_range.mpr hl]
    rw [hite]
    ring

/-! ## Assignment-step lemmas -/

theorem assignLabels_length (X C : List Point) : (assignLabels X C).length = X.length := by
  simp [assignLabels]

theorem assignLabels_lt (X C : List Point) (hC : C ≠ []) :
    ∀ l ∈ assignLabels X C, l < C.length := by
  intro l hl
  simp only [assignLabels, List.mem_map] at hl
  obtain ⟨x, _, hx⟩ := hl
  rw [← hx]
  have hmap : (C.map (fun c => sqDistQ (toQ x) (toQ c))) ≠ [] := by
    cases C with
    | nil => exact absurd rfl hC
    | cons c cs => simp
  simpa using argminIdx_lt_length _ hmap

theorem assign_head_le (x : Point) (C : List Point) (l : Nat) (hl : l < C.length) :
    sqDistQ (toQ x) (toQ (C.getD (argminIdx (C.map (fun c => sqDistQ (toQ x) (toQ c)))) []))
      ≤ sqDistQ (toQ x) (toQ (C.getD l [])) := by
  have hCne : C ≠ [] := by
    intro h; rw [h] at hl; simp at hl
  have hmapne : (C.map (fun c => sqDistQ (toQ x) (toQ c))) ≠ [] := by
    cases C with
    | nil => exact absurd rfl hCne
    | cons c cs => simp
  have hlen : (C.map (fun c => sqDistQ (toQ x) (toQ c))).length = C.length := by simp
  have ham : argminIdx (C.map (fun c => sqDistQ (toQ x) (toQ c))) < C.length := by
    rw [← hlen]; exact argminIdx_lt_length _ hmapne
  have h1 := getD_map_of_lt (fun c => sqDistQ (toQ x) (toQ c)) C
    (argminIdx (C.map (fun c => sqDistQ (toQ x) (toQ c)))) [] 0 ham
  have h2 := getD_map_of_lt (fun c => sqDistQ (toQ x) (toQ c)) C l [] 0 hl
  have h3 := argminIdx_le (C.map (fun c => sqDistQ (toQ x) (toQ c))) l (by rw [hlen]; exact hl)
  rw [h1, h2] at h3
  exact h3

/-- Re-assigning every point to its nearest centroid does not increase the
objective against any other valid labeling. -/
theorem ssd_assign_le : ∀ (X : List Point) (labels : List Nat) (C : List Point),
    labels.length = X.length → (∀ l ∈ labels, l < C.length) →
    ssd X C (assignLabels X C) ≤ ssd X C labels
  | [], [], C, _, _ => by simp [assignLabels, ssd]
  | [], l :: L, C, hlen, _ => by simp at hlen
  | x :: X, [], C, hlen, _ => by simp at hlen
  | x :: X, l :: L, C, hlen, hlt => by
    have ih := ssd_assign_le X L C (by simpa using hlen) (fun m hm => hlt m (by simp [hm]))
    have hl : l < C.length := hlt l (by simp)
    simp only [assignLabels, List.map_cons, ssd] at ih ⊢
    exact add_le_add (assign_head_le x C l hl) ih

/-! ## Mean-step lemmas -/

theorem toQ_length (p : Point) : (toQ p).length = p.length := by simp [toQ]

theorem toQ_map_some (l : List ℚ) : toQ (l.map some) = l := by
  simp [toQ, List.map_map, Function.comp_def]

theorem qmean_length (ps : List (List ℚ)) (D : Nat) : (qmean ps D).length = D := by
  simp [qmean]

theorem qmean_getD (ps : List (List ℚ)) (D d : Nat) (h : d < D) :
    (qmean ps D).getD d 0 = (ps.map (fun p => p.getD d 0)).sum / (ps.length : ℚ) :=
  getD_range_map _ D d 0 h

theorem clusterMean_of_ne (pts : List Point) (D : Nat) (h : pts ≠ []) :
    clusterMean pts D = (qmean (pts.map toQ) D).map some := by
  simp [clusterMean, h]

theorem clusterMean_length (pts : List Point) (D : Nat) : (clusterMean pts D).length = D := by
  by_cases h : pts = [] <;> simp [clusterMean, h, qmean_length]

theorem toQ_clusterMean (pts : List Point) (D : Nat) (h : pts ≠ []) :
    toQ (clusterMean pts D) = qmean (pts.map toQ) D := by
  rw [clusterMean_of_ne pts D h, toQ_map_some]

theorem clusterCost_eq_sum (pts : List Point) (c : Point) (D : Nat)
    (hd : ∀ p ∈ pts, p.length = D) (hc : (toQ c).length = D) :
    clusterCost pts c = ∑ d in Finset.range D,
      (pts.map (fun p => ((toQ p).getD d 0 - (toQ c).getD d 0) ^ 2)).sum := by
  rw [clusterCost]
  have hcong : pts.map (fun p => sqDistQ (toQ p) (toQ c))
      = pts.map (fun p => ∑ d in Finset.range D, ((toQ p).getD d 0 - (toQ c).getD d 0) ^ 2) := by
    apply List.map_congr_left
    intro p hp
    have hp' : (toQ p).length = D := by rw [toQ_length]; exact hd p hp
    rw [sqDistQ_eq_sum (toQ p) (toQ c) (by rw [hc, hp']), hp']
  rw [hcong]
  exact sum_map_finset_sum pts D _

/-- The componentwise mean minimises each cluster's cost. -/
theorem clusterCost_mean_le (pts : List Point) (D : Nat) (c : Point)
    (hne : pts ≠ []) (hd : ∀ p ∈ pts, p.length = D) (hc : c.length = D) :
    clusterCost pts (clusterMean pts D) ≤ clusterCost pts c := by
  have hmQ : toQ (clusterMean pts D) = qmean (pts.map toQ) D := toQ_clusterMean pts D hne
  have hmlen : (toQ (clusterMean pts D)).length = D := by rw [hmQ]; exact qmean_length _ _
  have hclen : (toQ c).length = D := by rw [toQ_length]; exact hc
  rw [clusterCost_eq_sum pts (clusterMean pts D) D hd hmlen,
      clusterCost_eq_sum pts c D hd hclen]
  apply Finset.sum_le_sum
  intro d hd'
  have hdD := Finset.mem_range.mp hd'
  have hlne : pts.map (fun p => (toQ p).getD d 0) ≠ [] := by
    cases pts with
    | nil => exact absurd rfl hne
    | cons p ps => simp
  have hμ : (toQ (clusterMean pts D)).getD d 0
      = (pts.map (fun p => (toQ p).getD d 0)).sum
        / ((pts.map (fun p => (toQ p).getD d 0)).length : ℚ) := by
    rw [hmQ, qmean_getD _ _ _ hdD, List.map_map]
    simp [Function.comp_def]
  rw [hμ]
  have h1 := one_dim_mean_le (pts.map (fun p => (toQ p).getD d 0)) ((toQ c).getD d 0) hlne
  simpa [List.map_map, Function.comp] using h1

/-! ## `updateCenters` lemmas -/

theorem updateCenters_length (X : List Point) (K D : Nat) (labels : List Nat) :
    (updateCenters X K D labels).length = K := by
  simp [updateCenters]

theorem updateCenters_getD (X : List Point) (K D : Nat) (labels : List Nat) (k : Nat)
    (h : k < K) :
    (updateCenters X K D labels).getD k [] = clusterMean (selectLabeled X labels k) D :=
  getD_range_map _ K k [] h

theorem updateCenters_row_length (X : List Point) (K D : Nat) (labels : List Nat) :
    ∀ c ∈ updateCenters X K D labels, c.length = D := by
  intro c hc
  simp only [updateCenters, List.mem_map] at hc
  obtain ⟨k, _, hk⟩ := hc
  rw [← hk]
  exact clusterMean_length _ _

/-- Moving every centroid to the mean of its cluster does not increase the
objective, the labeling staying fixed. -/
theorem ssd_update_le (X C : List Point) (K D : Nat) (labels : List Nat)
    (hlen : labels.length = X.length) (hlt : ∀ l ∈ labels, l < K)
    (hK : C.length = K) (hXd : ∀ p ∈ X, p.length = D) (hCd : ∀ c ∈ C, c.length = D)
    (hne : ∀ k, k < K → selectLabeled X labels k ≠ []) :
    ssd X (updateCenters X K D labels) labels ≤ ssd X C labels := by
  rw [ssd_partition X labels C K hlen hlt,
      ssd_partition X labels (updateCenters X K D labels) K hlen hlt]
  apply Finset.sum_le_sum
  intro k hk
  have hkK := Finset.mem_range.mp hk
  rw [updateCenters_getD X K D labels k hkK]
  apply clusterCost_mean_le
  · exact hne k hkK
  · intro p hp
    exact hXd p (selectLabeled_subset X labels k p hp)
  · exact hCd _ (getD_mem_of_lt C k [] (by omega))

/-- One full assignment/update pass does not increase the objective. -/
theorem ssd_step_le (X C : List Point) (K D : Nat)
    (hK : C.length = K) (hXd : ∀ p ∈ X, p.length = D) (hCd : ∀ c ∈ C, c.length = D)
    (hCne : C ≠ [])
    (hne : ∀ k, k < K → selectLabeled X (assignLabels X C) k ≠ []) :
    ssd X (updateCenters X K D (assignLabels X C))
        (assignLabels X (updateCenters X K D (assignLabels X C)))
      ≤ ssd X C (assignLabels X C) := by
  have hlen : (assignLabels X C).length = X.length := assignLabels_length X C
  have hltC : ∀ l ∈ assignLabels X C, l < C.length := assignLabels_lt X C hCne
  have hltK : ∀ l ∈ assignLabels X C, l < K := fun l hl => hK ▸ hltC l hl
  have h2 : ssd X (updateCenters X K D (assignLabels X C)) (assignLabels X C)
      ≤ ssd X C (assignLabels X C) :=
    ssd_update_le X C K D (assignLabels X C) hlen hltK hK hXd hCd hne
  have h1 : ssd X (updateCenters X K D (assignLabels X C))
      (assignLabels X (updateCenters X K D (assignLabels X C)))
      ≤ ssd X (updateCenters X K D (assignLabels X C)) (assignLabels X C) := by
    apply ssd_assign_le X (assignLabels X C) (updateCenters X K D (assignLabels X C)) hlen
    intro l hl
    rw [updateCenters_length]
    exact hltK l hl
  exact h1.trans h2

/-! ## Characterising the numpy equality test -/

theorem valEq_none_right (v : Val) : valEq v none = false := by
  cases v <;> rfl

theorem valEq_true_elim {a b : Val} (h : valEq a b = true) :
    ∃ x : ℚ, a = some x ∧ b = some x := by
  cases a with
  | none => simp [valEq] at h
  | some x =>
    cases b with
    | none => simp [valEq] at h
    | some y =>
      simp only [valEq, decide_eq_true_eq] at h
      exact ⟨x, rfl, by rw [h]⟩

theorem valEq_some_refl (x : ℚ) : valEq (some x) (some x) = true := by
  simp [valEq]

theorem rowEq_elim : ∀ {p q : Point}, rowEq p q = true →
    p.length = q.length ∧ ∀ d, d < p.length → valEq (p.getD d none) (q.getD d none) = true
  | [], [], _ => ⟨rfl, fun d hd => absurd hd (by simp)⟩
  | [], b :: q, h => by rw [rowEq] at h; simp at h
  | a :: p, [], h => by rw [rowEq] at h; simp at h
  | a :: p, b :: q, h => by
    rw [rowEq] at h
    simp only [List.length_cons, decide_eq_true_eq, List.zipWith_cons_cons, List.all_cons,
      Bool.and_eq_true, id] at h
    obtain ⟨hlen, hv, hall⟩ := h
    have hpq : rowEq p q = true := by
      rw [rowEq]
      simp only [Bool.and_eq_true, decide_eq_true_eq]
      exact ⟨by omega, hall⟩
    obtain ⟨hlen2, hd⟩ := rowEq_elim hpq
    refine ⟨by simp; omega, fun d hdlt => ?_⟩
    cases d with
    | zero => simpa using hv
    | succ n =>
      simp only [List.getD_cons_succ]
      exact hd n (by simp at hdlt; omega)

theorem rowEq_refl_finite : ∀ (p : Point), finiteP p = true → rowEq p p = true
  | [], _ => rfl
  | v :: t, h => by
    simp only [finiteP, List.all_cons, Bool.and_eq_true] at h
    obtain ⟨h1, h2⟩ := h
    have ih := rowEq_refl_finite t (by simpa [finiteP] using h2)
    cases v with
    | none => simp at h1
    | some x =>
      rw [rowEq] at ih ⊢
      simp only [Bool.and_eq_true, decide_eq_true_eq] at ih ⊢
      refine ⟨by simp, ?_⟩
      simp only [List.zipWith_cons_cons, List.all_cons, Bool.and_eq_true, id]
      exact ⟨valEq_some_refl x, ih.2⟩

theorem rowEq_replicate_none_right (p : Point) (D : Nat) (hD : D ≠ 0) :
    rowEq p (List.replicate D none) = false := by
  cases hb : rowEq p (List.replicate D none) with
  | false => rfl
  | true =>
    obtain ⟨hlen, hall⟩ := rowEq_elim hb
    rw [List.length_replicate] at hlen
    have h0 : valEq (p.getD 0 none) ((List.replicate D none).getD 0 none) = true :=
      hall 0 (by omega)
    have : (List.replicate D none : Point).getD 0 none = none := by
      cases D with
      | zero => omega
      | succ n => simp [List.replicate_succ]
    rw [this, valEq_none_right] at h0
    exact absurd h0 (by simp)

theorem centersEq_elim : ∀ {A B : List Point}, centersEq A B = true →
    A.length = B.length ∧ ∀ k, k < A.length → rowEq (A.getD k []) (B.getD k []) = true
  | [], [], _ => ⟨rfl, fun k hk => absurd hk (by simp)⟩
  | [], b :: B, h => by rw [centersEq] at h; simp at h
  | a :: A, [], h => by rw [centersEq] at h; simp at h
  | a :: A, b :: B, h => by
    rw [centersEq] at h
    simp only [List.length_cons, decide_eq_true_eq, List.zipWith_cons_cons, List.all_cons,
      Bool.and_eq_true, id] at h
    obtain ⟨hlen, hv, hall⟩ := h
    have hAB : centersEq A B = true := by
      rw [centersEq]
      simp only [Bool.and_eq_true, decide_eq_true_eq]
      exact ⟨by omega, hall⟩
    obtain ⟨hlen2, hk⟩ := centersEq_elim hAB
    refine ⟨by simp; omega, fun k hklt => ?_⟩
    cases k with
    | zero => simpa using hv
    | succ n =>
      simp only [List.getD_cons_succ]
      exact hk n (by simp at hklt; omega)

theorem centersEq_refl_finite : ∀ (A : List Point), finiteM A = true → centersEq A A = true
  | [], _ => rfl
  | a :: A, h => by
    simp only [finiteM, List.all_cons, Bool.and_eq_true] at h
    obtain ⟨h1, h2⟩ := h
    have ih := centersEq_refl_finite A (by simpa [finiteM] using h2)
    rw [centersEq] at ih ⊢
    simp only [Bool.and_eq_true, decide_eq_true_eq] at ih ⊢
    refine ⟨by simp, ?_⟩
    simp only [List.zipWith_cons_cons, List.all_cons, Bool.and_eq_true, id]
    exact ⟨rowEq_refl_finite a h1, ih.2⟩

theorem centersEq_false_of_nan_row (A B : List Point) (D k : Nat) (hk : k < B.length)
    (hD : D ≠ 0) (hB : B.getD k [] = List.replicate D none) :
    centersEq A B = false := by
  cases hb : centersEq A B with
  | false => rfl
  | true =>
    obtain ⟨hlen, hall⟩ := centersEq_elim hb
    have hr : rowEq (A.getD k []) (B.getD k []) = true := hall k (by omega)
    rw [hB, rowEq_replicate_none_right _ D hD] at hr
    exact absurd hr (by simp)

/-! ## Characterising `check_array` and `pairwise_distances_argmin` -/

theorem check_array_ok_elim {A : List Point} (h : check_array A = .ok ()) :
    finiteM A = true ∧ A ≠ [] ∧ (A.headD []).length ≠ 0 := by
  rw [check_array] at h
  by_cases h1 : finiteM A = false
  · rw [if_pos h1] at h; exact absurd h (by simp)
  · rw [if_neg h1] at h
    by_cases h2 : A = []
    · rw [if_pos h2] at h; exact absurd h (by simp)
    · rw [if_neg h2] at h
      by_cases h3 : (A.headD []).length = 0
      · rw [if_pos h3] at h; exact absurd h (by simp)
      · exact ⟨by simpa using h1, h2, h3⟩

theorem check_array_ok_intro {A : List Point} (hA : finiteM A = true) (hne : A ≠ [])
    (hd : (A.headD []).length ≠ 0) : check_array A = .ok () := by
  rw [check_array]
  rw [if_neg (by rw [hA]; simp), if_neg hne, if_neg hd]

theorem check_array_nonfinite {A : List Point} (hA : finiteM A = false) :
    check_array A = .error .valueErrorNonFinite := by
  rw [check_array, if_pos hA]

theorem pairwise_ok_elim {X Y : List Point} {labels : List Nat}
    (h : pairwise_distances_argmin X Y = .ok labels) :
    labels = assignLabels X Y ∧
    finiteM X = true ∧ X ≠ [] ∧ (X.headD []).length ≠ 0 ∧
    finiteM Y = true ∧ Y ≠ [] ∧ (Y.headD []).length ≠ 0 := by
  rw [pairwise_distances_argmin] at h
  cases hX : check_array X with
  | error e => rw [hX] at h; exact absurd h (by simp)
  | ok u =>
    rw [hX] at h
    cases hY : check_array Y with
    | error e => rw [hY] at h; exact absurd h (by simp)
    | ok v =>
      rw [hY] at h
      simp only [Except.ok.injEq] at h
      obtain ⟨hXf, hXne, hXd⟩ := check_array_ok_elim (by cases u; exact hX)
      obtain ⟨hYf, hYne, hYd⟩ := check_array_ok_elim (by cases v; exact hY)
      exact ⟨h.symm, hXf, hXne, hXd, hYf, hYne, hYd⟩

theorem pairwise_ok_intro {X Y : List Point}
    (hXf : finiteM X = true) (hXne : X ≠ []) (hXd : (X.headD []).length ≠ 0)
    (hYf : finiteM Y = true) (hYne : Y ≠ []) (hYd : (Y.headD []).length ≠ 0) :
    pairwise_distances_argmin X Y = .ok (assignLabels X Y) := by
  rw [pairwise_distances_argmin, check_array_ok_intro hXf hXne hXd,
    check_array_ok_intro hYf hYne hYd]

theorem pairwise_err_nonfiniteY {X Y : List Point}
    (hX : check_array X = .ok ()) (hY : finiteM Y = false) :
    pairwise_distances_argmin X Y = .error .valueErrorNonFinite := by
  rw [pairwise_distances_argmin, hX, check_array_nonfinite hY]

/-! ## `kloop` lemmas -/

theorem kloop_zero (X : List Point) (K D : Nat) (C : List Point) (i : Nat) :
    kloop X K D C i 0 = none := rfl

theorem kloop_succ (X : List Point) (K D : Nat) (C : List Point) (i fuel : Nat) :
    kloop X K D C i (fuel + 1)
      = match pairwise_distances_argmin X C with
        | .error e => some (.error e)
        | .ok labels =>
          if centersEq C (updateCenters X K D labels)
          then some (.ok (C, labels, i + 1))
          else kloop X K D (updateCenters X K D labels) (i + 1) fuel := rfl

/-- Once the current centers contain a non-finite entry, the next pass fails
with the sklearn `ValueError` (provided `X` itself passes its checks). -/
theorem kloop_nonfinite_err (X : List Point) (K D : Nat) (C : List Point) (i : Nat)
    (hX : check_array X = .ok ()) (hC : finiteM C = false) :
    ∀ fuel, 1 ≤ fuel → kloop X K D C i fuel = some (.error .valueErrorNonFinite) := by
  intro fuel hf
  cases fuel with
  | zero => omega
  | succ f =>
    rw [kloop_succ, pairwise_err_nonfiniteY hX hC]

theorem kloop_nonfinite_not_ok (X : List Point) (K D : Nat) (C : List Point) (i : Nat)
    (hX : check_array X = .ok ()) (hC : finiteM C = false) :
    ∀ fuel r, kloop X K D C i fuel ≠ some (.ok r) := by
  intro fuel r
  cases fuel with
  | zero => rw [kloop_zero]; simp
  | succ f =>
    rw [kloop_nonfinite_err X K D C i hX hC (f + 1) (by omega)]
    simp

/-- An empty cluster makes the recomputed center a row of NaNs. -/
theorem updateCenters_nan_row (X : List Point) (K D : Nat) (labels : List Nat) (k : Nat)
    (hk : k < K) (he : selectLabeled X labels k = []) :
    (updateCenters X K D labels).getD k [] = List.replicate D none := by
  rw [updateCenters_getD X K D labels k hk, he, clusterMean]
  simp

theorem updateCenters_nonfinite (X : List Point) (K D : Nat) (labels : List Nat) (k : Nat)
    (hk : k < K) (hD : D ≠ 0) (he : selectLabeled X labels k = []) :
    finiteM (updateCenters X K D labels) = false := by
  have hrow := updateCenters_nan_row X K D labels k hk he
  cases hb : finiteM (updateCenters X K D labels) with
  | false => rfl
  | true =>
    rw [finiteM, List.all_eq_true] at hb
    have hmem : (updateCenters X K D labels).getD k [] ∈ updateCenters X K D labels := by
      apply getD_mem_of_lt
      rw [updateCenters_length]
      exact hk
    have := hb _ hmem
    rw [hrow] at this
    rw [finiteP, List.all_eq_true] at this
    have hnone : (none : Val) ∈ List.replicate D (none : Val) :=
      List.mem_replicate.mpr ⟨hD, rfl⟩
    have := this _ hnone
    simp at this

theorem headD_length_eq {X : List Point} {D : Nat} (hXd : ∀ p ∈ X, p.length = D)
    (hne : X ≠ []) : (X.headD []).length = D := by
  cases X with
  | nil => exact absurd rfl hne
  | cons x t => exact hXd x (by simp)

/-- A normal return of the loop comes from the `break`: the returned labels are
the nearest-centroid assignment against the returned centers, and the returned
centers pass the exact-equality convergence test against their own update. -/
theorem kloop_ok_break : ∀ (fuel : Nat) {X : List Point} {K D : Nat} {C : List Point} {i : Nat}
    {fc : List Point} {fl : List Nat} {fi : Nat},
    kloop X K D C i fuel = some (.ok (fc, fl, fi)) →
    pairwise_distances_argmin X fc = .ok fl ∧ centersEq fc (updateCenters X K D fl) = true
  | 0, _, _, _, _, _, _, _, _, h => by rw [kloop_zero] at h; exact absurd h (by simp)
  | fuel + 1, X, K, D, C, i, fc, fl, fi, h => by
    rw [kloop_succ] at h
    split at h
    next e hp => simp at h
    next labels hp =>
      by_cases hc : centersEq C (updateCenters X K D labels) = true
      · rw [if_pos hc] at h
        simp only [Option.some.injEq, Except.ok.injEq, Prod.mk.injEq] at h
        obtain ⟨h1, h2, h3⟩ := h
        rw [← h1, ← h2]
        exact ⟨hp, hc⟩
      · rw [if_neg hc] at h
        exact kloop_ok_break fuel h

/-- Core of the objective-monotonicity argument: a normal return's objective is
at most the objective of any loop state it is reached from. -/
theorem kloop_ok_ssd : ∀ (fuel : Nat) {X : List Point} {K D : Nat} {C : List Point} {i : Nat}
    {fc : List Point} {fl : List Nat} {fi : Nat},
    (∀ p ∈ X, p.length = D) → (∀ c ∈ C, c.length = D) → C.length ≤ K →
    kloop X K D C i fuel = some (.ok (fc, fl, fi)) →
    ssd X fc fl ≤ ssd X C (assignLabels X C)
  | 0, _, _, _, _, _, _, _, _, _, _, _, h => by rw [kloop_zero] at h; exact absurd h (by simp)
  | fuel + 1, X, K, D, C, i, fc, fl, fi, hXd, hCd, hCK, h => by
    rw [kloop_succ] at h
    split at h
    next e hp => simp at h
    next labels hp =>
      obtain ⟨hlab, hXf, hXne, hXhead, hCf, hCne, hChead⟩ := pairwise_ok_elim hp
      subst hlab
      by_cases hc : centersEq C (updateCenters X K D (assignLabels X C)) = true
      · rw [if_pos hc] at h
        simp only [Option.some.injEq, Except.ok.injEq, Prod.mk.injEq] at h
        obtain ⟨h1, h2, _⟩ := h
        rw [← h1, ← h2]
      · rw [if_neg hc] at h
        have hD0 : D ≠ 0 := by
          have := headD_length_eq hXd hXne
          omega
        have hNCd := updateCenters_row_length X K D (assignLabels X C)
        have hNCl := updateCenters_length X K D (assignLabels X C)
        have ih := kloop_ok_ssd fuel hXd hNCd (by rw [hNCl]) h
        have hXok : check_array X = .ok () := check_array_ok_intro hXf hXne hXhead
        have hnonempty : ∀ k, k < K → selectLabeled X (assignLabels X C) k ≠ [] := by
          intro k hk hcontra
          have hnf := updateCenters_nonfinite X K D (assignLabels X C) k hk hD0 hcontra
          exact kloop_nonfinite_not_ok X K D _ (i + 1) hXok hnf fuel _ h
        have hCKeq : C.length = K := by
          by_contra hne'
          have hlt : C.length < K := by omega
          have hsel : selectLabeled X (assignLabels X C) C.length = [] :=
            selectLabeled_empty_of_ge C.length X (assignLabels X C) (assignLabels_lt X C hCne)
          exact hnonempty C.length hlt hsel
        have hstep := ssd_step_le X C K D hCKeq hXd hCd hCne hnonempty
        exact ih.trans hstep

/-! ## The seeded initialization -/

theorem insertAt_perm (n x : Nat) (l : List Nat) : List.Perm (insertAt n x l) (x :: l) := by
  rw [insertAt]
  have h1 : List.Perm (l.take n ++ x :: l.drop n) (x :: (l.take n ++ l.drop n)) :=
    List.perm_middle
  rwa [List.take_append_drop] at h1

theorem shuffle_perm : ∀ (s : Nat) (l : List Nat), List.Perm (shuffle s l) l
  | _, [] => List.Perm.refl _
  | s, x :: xs => by
    rw [shuffle]
    exact (insertAt_perm _ x _).trans ((shuffle_perm (lcgStep s) xs).cons x)

theorem permutation_perm (rseed N : Nat) : List.Perm (permutation rseed N) (List.range N) :=
  shuffle_perm _ _

theorem permutation_nodup (rseed N : Nat) : (permutation rseed N).Nodup :=
  (permutation_perm rseed N).nodup_iff.mpr (List.nodup_range N)

theorem permutation_mem_lt (rseed N : Nat) : ∀ i ∈ permutation rseed N, i < N := by
  intro i hi
  have := (permutation_perm rseed N).mem_iff.mp hi
  simpa using this

theorem permutation_length (rseed N : Nat) : (permutation rseed N).length = N := by
  rw [(permutation_perm rseed N).length_eq]
  simp

theorem initIndices_nodup (rseed N K : Nat) : (initIndices rseed N K).Nodup :=
  (permutation_nodup rseed N).sublist (List.take_sublist K _)

theorem initIndices_mem_lt (rseed N K : Nat) : ∀ i ∈ initIndices rseed N K, i < N := by
  intro i hi
  exact permutation_mem_lt rseed N i (List.take_subset K _ hi)

theorem initIndices_length (rseed N K : Nat) : (initIndices rseed N K).length = min K N := by
  rw [initIndices, List.length_take, permutation_length]

theorem initCentroids_length (X : List Point) (K s : Nat) :
    (initCentroids X K s).length = min K X.length := by
  rw [initCentroids, List.length_map, initIndices_length]

theorem initCentroids_mem (X : List Point) (K s : Nat) :
    ∀ c ∈ initCentroids X K s, c ∈ X := by
  intro c hc
  simp only [initCentroids, List.mem_map] at hc
  obtain ⟨idx, hidx, hc⟩ := hc
  rw [← hc]
  exact getD_mem_of_lt X idx [] (initIndices_mem_lt s X.length K idx hidx)

theorem find_clusters_def (X : List Point) (K s fuel : Nat) :
    find_clusters X K s fuel
      = kloop X K (X.headD []).length (initCentroids X K s) 0 fuel := rfl

/-! ## Further helpers for the claim theorems -/

/-- numpy `==` is `True` on a pair of float entries only when both are the same
finite value, so an all-`True` elementwise comparison forces row equality. -/
theorem rowEq_eq : ∀ {p q : Point}, rowEq p q = true → p = q
  | [], [], _ => rfl
  | [], b :: q, h => by rw [rowEq] at h; simp at h
  | a :: p, [], h => by rw [rowEq] at h; simp at h
  | a :: p, b :: q, h => by
    rw [rowEq] at h
    simp only [List.length_cons, decide_eq_true_eq, List.zipWith_cons_cons, List.all_cons,
      Bool.and_eq_true, id] at h
    obtain ⟨hlen, hv, hall⟩ := h
    obtain ⟨x, hx1, hx2⟩ := valEq_true_elim hv
    have hpq : p = q := by
      apply rowEq_eq
      rw [rowEq]
      simp only [Bool.and_eq_true, decide_eq_true_eq]
      exact ⟨by omega, hall⟩
    rw [hx1, hx2, hpq]

theorem centersEq_eq : ∀ {A B : List Point}, centersEq A B = true → A = B
  | [], [], _ => rfl
  | [], b :: B, h => by rw [centersEq] at h; simp at h
  | a :: A, [], h => by rw [centersEq] at h; simp at h
  | a :: A, b :: B, h => by
    rw [centersEq] at h
    simp only [List.length_cons, decide_eq_true_eq, List.zipWith_cons_cons, List.all_cons,
      Bool.and_eq_true, id] at h
    obtain ⟨hlen, hv, hall⟩ := h
    have hAB : A = B := by
      apply centersEq_eq
      rw [centersEq]
      simp only [Bool.and_eq_true, decide_eq_true_eq]
      exact ⟨by omega, hall⟩
    rw [rowEq_eq hv, hAB]

theorem finiteP_of_mem {A : List Point} {p : Point} (hA : finiteM A = true) (hp : p ∈ A) :
    finiteP p = true := by
  rw [finiteM, List.all_eq_true] at hA
  exact hA p hp

theorem finiteM_of_subset {A B : List Point} (hsub : ∀ c ∈ A, c ∈ B)
    (hB : finiteM B = true) : finiteM A = true := by
  rw [finiteM, List.all_eq_true]
  intro c hc
  exact finiteP_of_mem hB (hsub c hc)

theorem finiteP_map_some (l : List ℚ) : finiteP (l.map some) = true := by
  rw [finiteP, List.all_eq_true]
  intro v hv
  simp only [List.mem_map] at hv
  obtain ⟨x, _, hx⟩ := hv
  rw [← hx]
  rfl

theorem getD_map_some (l : List ℚ) (i : Nat) (h : i < l.length) :
    (l.map some).getD i none = some (l.getD i 0) :=
  getD_map_of_lt some l i 0 none h

/-- With a single centroid every point is assigned label 0. -/
theorem assignLabels_singleton (X : List Point) (c : Point) :
    assignLabels X [c] = List.replicate X.length 0 := by
  rw [assignLabels]
  apply List.eq_replicate_iff.mpr
  refine ⟨by simp, ?_⟩
  intro b hb
  simp only [List.mem_map] at hb
  obtain ⟨x, _, hx⟩ := hb
  rw [← hx]
  rfl

theorem selectLabeled_zero_replicate : ∀ (X : List Point),
    selectLabeled X (List.replicate X.length 0) 0 = X
  | [] => rfl
  | x :: t => by
    simp only [List.length_cons, List.replicate_succ]
    rw [selectLabeled_cons, if_pos rfl, selectLabeled_zero_replicate t]

theorem assign_head_first (x : Point) (C : List Point) (i : Nat)
    (hi : i < argminIdx (C.map (fun c => sqDistQ (toQ x) (toQ c)))) :
    sqDistQ (toQ x) (toQ (C.getD (argminIdx (C.map (fun c => sqDistQ (toQ x) (toQ c)))) []))
      < sqDistQ (toQ x) (toQ (C.getD i [])) := by
  cases C with
  | nil => simp [argminIdx] at hi
  | cons c0 cs =>
    have hmapne : ((c0 :: cs).map (fun c => sqDistQ (toQ x) (toQ c))) ≠ [] := by simp
    have hlen : ((c0 :: cs).map (fun c => sqDistQ (toQ x) (toQ c))).length
        = (c0 :: cs).length := by simp
    have ham : argminIdx ((c0 :: cs).map (fun c => sqDistQ (toQ x) (toQ c)))
        < (c0 :: cs).length := by
      rw [← hlen]; exact argminIdx_lt_length _ hmapne
    have h1 := getD_map_of_lt (fun c => sqDistQ (toQ x) (toQ c)) (c0 :: cs)
      (argminIdx ((c0 :: cs).map (fun c => sqDistQ (toQ x) (toQ c)))) [] 0 ham
    have h2 := getD_map_of_lt (fun c => sqDistQ (toQ x) (toQ c)) (c0 :: cs) i [] 0 (by omega)
    have h3 := argminIdx_first ((c0 :: cs).map (fun c => sqDistQ (toQ x) (toQ c))) i hi
    rw [h1, h2] at h3
    exact h3

theorem kloop_succ_ok (X : List Point) {labels : List Nat} (K D : Nat) (C : List Point)
    (i fuel : Nat) (hp : pairwise_distances_argmin X C = .ok labels) :
    kloop X K D C i (fuel + 1)
      = if centersEq C (updateCenters X K D labels)
        then some (.ok (C, labels, i + 1))
        else kloop X K D (updateCenters X K D labels) (i + 1) fuel := by
  rw [kloop_succ, hp]

theorem kloop_succ_err (X : List Point) {e : KError} (K D : Nat) (C : List Point)
    (i fuel : Nat) (hp : pairwise_distances_argmin X C = .error e) :
    kloop X K D C i (fuel + 1) = some (.error e) := by
  rw [kloop_succ, hp]

/-- Behaviour of the loop from a state whose update step empties cluster `k`:
the convergence test fails, the loop can never return normally, and with two or
more remaining passes it fails with the sklearn `ValueError` raised on the NaN
centers. -/
theorem kloop_empty_cluster (X C : List Point) (K D i k : Nat)
    (hp : pairwise_distances_argmin X C = .ok (assignLabels X C))
    (hk : k < K) (hD : D ≠ 0)
    (hsel : selectLabeled X (assignLabels X C) k = []) :
    centersEq C (updateCenters X K D (assignLabels X C)) = false ∧
    (∀ fuel r, kloop X K D C i fuel ≠ some (.ok r)) ∧
    (∀ fuel, 2 ≤ fuel → kloop X K D C i fuel = some (.error .valueErrorNonFinite)) ∧
    kloop X K D C i 1 = none := by
  obtain ⟨_, hXf, hXne, hXhead, _, _, _⟩ := pairwise_ok_elim hp
  have hXok : check_array X = .ok () := check_array_ok_intro hXf hXne hXhead
  have hnan := updateCenters_nan_row X K D (assignLabels X C) k hk hsel
  have hnf := updateCenters_nonfinite X K D (assignLabels X C) k hk hD hsel
  have hcne : centersEq C (updateCenters X K D (assignLabels X C)) = false := by
    apply centersEq_false_of_nan_row _ _ D k _ hD hnan
    rw [updateCenters_length]
    exact hk
  have hif : ¬ (centersEq C (updateCenters X K D (assignLabels X C)) = true) := by
    rw [hcne]; simp
  refine ⟨hcne, ?_, ?_, ?_⟩
  · intro fuel r
    cases fuel with
    | zero => rw [kloop_zero]; simp
    | succ f =>
      rw [kloop_succ_ok X K D C i f hp, if_neg hif]
      exact kloop_nonfinite_not_ok X K D _ (i + 1) hXok hnf f r
  · intro fuel hf
    cases fuel with
    | zero => omega
    | succ f =>
      cases f with
      | zero => omega
      | succ f2 =>
        rw [kloop_succ_ok X K D C i (f2 + 1) hp, if_neg hif]
        exact kloop_nonfinite_err X K D _ (i + 1) hXok hnf (f2 + 1) (by omega)
  · rw [kloop_succ_ok X K D C i 0 hp, if_neg hif, kloop_zero]

theorem clusterMean_nil (D : Nat) : clusterMean [] D = List.replicate D none := by
  rw [clusterMean, if_pos rfl]

theorem assignLabels_getD (X C : List Point) (j : Nat) (hj : j < X.length) :
    (assignLabels X C).getD j 0
      = argminIdx (C.map (fun c => sqDistQ (toQ (X.getD j [])) (toQ c))) := by
  rw [assignLabels]
  exact getD_map_of_lt _ X j [] 0 hj

theorem finiteP_replicate_none (D : Nat) (hD : D ≠ 0) :
    finiteP (List.replicate D (none : Val)) = false := by
  cases hb : finiteP (List.replicate D (none : Val)) with
  | false => rfl
  | true =>
    rw [finiteP, List.all_eq_true] at hb
    have := hb none (List.mem_replicate.mpr ⟨hD, rfl⟩)
    simp at this

/-! ## Claim theorems -/

/-- C1: For every input on which a clustering run terminates, the returned
result is a fixed point: every point's label equals the argmin over the
returned centroids of Euclidean distance to that point (ties broken by lowest
centroid index — the label attains the minimum and every smaller index is
strictly farther), and every returned centroid equals the componentwise
arithmetic mean of the points labeled with its index (each such cluster being
nonempty). -/
theorem find_clusters_fixed_point (X : List Point) (K s fuel D : Nat)
    (centers : List Point) (labels : List Nat) (iters : Nat)
    (hXd : ∀ p ∈ X, p.length = D)
    (h : find_clusters X K s fuel = some (.ok (centers, labels, iters))) :
    centers.length = K ∧ labels.length = X.length ∧
    (∀ j, j < X.length →
      labels.getD j 0 < K ∧
      (∀ i, i < K →
        sqDistQ (toQ (X.getD j [])) (toQ (centers.getD (labels.getD j 0) []))
          ≤ sqDistQ (toQ (X.getD j [])) (toQ (centers.getD i []))) ∧
      (∀ i, i < labels.getD j 0 →
        sqDistQ (toQ (X.getD j [])) (toQ (centers.getD (labels.getD j 0) []))
          < sqDistQ (toQ (X.getD j [])) (toQ (centers.getD i [])))) ∧
    (∀ k, k < K → selectLabeled X labels k ≠ [] ∧
      (∀ d, d < D →
        (centers.getD k []).getD d none
          = some (((selectLabeled X labels k).map (fun p => (toQ p).getD d 0)).sum
                  / ((selectLabeled X labels k).length : ℚ)))) := by
  rw [find_clusters_def] at h
  obtain ⟨hp, hc⟩ := kloop_ok_break fuel h
  obtain ⟨hlab, hXf, hXne, hXhead, hCf, hCne, hChead⟩ := pairwise_ok_elim hp
  subst hlab
  have hD : (X.headD []).length = D := headD_length_eq hXd hXne
  rw [hD] at hc hXhead
  have hfix : centers = updateCenters X K D (assignLabels X centers) := centersEq_eq hc
  have hKlen : centers.length = K := by
    conv_lhs => rw [hfix]
    rw [updateCenters_length]
  refine ⟨hKlen, assignLabels_length X centers, ?_, ?_⟩
  · intro j hj
    rw [assignLabels_getD X centers j hj]
    refine ⟨?_, ?_, ?_⟩
    · have hmapne : (centers.map (fun c => sqDistQ (toQ (X.getD j [])) (toQ c))) ≠ [] := by
        cases centers with
        | nil => exact absurd rfl hCne
        | cons c cs => simp
      have := argminIdx_lt_length _ hmapne
      simpa [hKlen] using this
    · intro i hi
      exact assign_head_le (X.getD j []) centers i (by omega)
    · intro i hi
      exact assign_head_first (X.getD j []) centers i hi
  · intro k hk
    have hck : centers.getD k []
        = clusterMean (selectLabeled X (assignLabels X centers) k) D := by
      conv_lhs => rw [hfix]
      exact updateCenters_getD X K D (assignLabels X centers) k hk
    have hselne : selectLabeled X (assignLabels X centers) k ≠ [] := by
      intro hcontra
      rw [hcontra, clusterMean_nil] at hck
      have hmem : centers.getD k [] ∈ centers := getD_mem_of_lt centers k [] (by omega)
      have hfin := finiteP_of_mem hCf hmem
      rw [hck, finiteP_replicate_none D hXhead] at hfin
      exact absurd hfin (by simp)
    refine ⟨hselne, ?_⟩
    intro d hd
    rw [hck, clusterMean_of_ne _ _ hselne]
    rw [getD_map_some _ d (by rw [qmean_length]; exact hd)]
    rw [qmean_getD _ _ _ hd]
    simp [List.map_map, Function.comp_def]

/-- C1 witness: at `X = [[0],[2],[10],[12]]`, `K = 2`, `rseed = 0` the run
returns centers `[[1],[11]]` with labels `[0,0,1,1]`; cluster 0 is nonempty and
centroid 0's coordinate equals the mean of its cluster. -/
theorem find_clusters_fixed_point_witness :
    selectLabeled [[some 0], [some 2], [some 10], [some 12]] [0, 0, 1, 1] 0 ≠ [] ∧
    (([[some 1], [some 11]] : List Point).getD 0 []).getD 0 none
      = some (((selectLabeled [[some 0], [some 2], [some 10], [some 12]] [0, 0, 1, 1] 0).map
            (fun p => (toQ p).getD 0 0)).sum
          / ((selectLabeled [[some 0], [some 2], [some 10], [some 12]] [0, 0, 1, 1] 0).length
              : ℚ)) := by
  have h := find_clusters_fixed_point [[some 0], [some 2], [some 10], [some 12]] 2 0 9 1
    [[some 1], [some 11]] [0, 0, 1, 1] 2 (by with_unfolding_all decide)
    (by with_unfolding_all rfl)
  have h4 := h.2.2.2 0 (by omega)
  exact ⟨h4.1, h4.2 0 (by omega)⟩

/-- C2: for every run that returns, the within-cluster sum of squared
distances at the final state is at most its value at the initial assignment;
and a single assignment/update pass of the loop never increases the
objective. -/
theorem find_clusters_ssd_monotone :
    (∀ (X : List Point) (K s fuel D : Nat) (centers : List Point) (labels : List Nat)
        (iters : Nat), (∀ p ∈ X, p.length = D) →
        find_clusters X K s fuel = some (.ok (centers, labels, iters)) →
        ssd X centers labels
          ≤ ssd X (initCentroids X K s) (assignLabels X (initCentroids X K s)))
    ∧ (∀ (X C : List Point) (K D : Nat),
        C.length = K → (∀ p ∈ X, p.length = D) → (∀ c ∈ C, c.length = D) → C ≠ [] →
        (∀ k, k < K → selectLabeled X (assignLabels X C) k ≠ []) →
        ssd X (updateCenters X K D (assignLabels X C))
            (assignLabels X (updateCenters X K D (assignLabels X C)))
          ≤ ssd X C (assignLabels X C)) := by
  constructor
  · intro X K s fuel D centers labels iters hXd h
    rw [find_clusters_def] at h
    obtain ⟨hp, _⟩ := kloop_ok_break fuel h
    obtain ⟨_, _, hXne, _, _, _, _⟩ := pairwise_ok_elim hp
    rw [headD_length_eq hXd hXne] at h
    apply kloop_ok_ssd fuel hXd ?_ ?_ h
    · intro c hc
      exact hXd c (initCentroids_mem X K s c hc)
    · rw [initCentroids_length]
      omega
  · intro X C K D hK hXd hCd hCne hne
    exact ssd_step_le X C K D hK hXd hCd hCne hne

/-- C2 witness: the whole-run inequality at a concrete converging run, and the
single-pass inequality at a concrete state. -/
theorem find_clusters_ssd_monotone_witness :
    ssd [[some 0], [some 2], [some 10], [some 12]] [[some 1], [some 11]] [0, 0, 1, 1]
      ≤ ssd [[some 0], [some 2], [some 10], [some 12]]
          (initCentroids [[some 0], [some 2], [some 10], [some 12]] 2 0)
          (assignLabels [[some 0], [some 2], [some 10], [some 12]]
            (initCentroids [[some 0], [some 2], [some 10], [some 12]] 2 0)) ∧
    ssd [[some 0], [some 2]]
        (updateCenters [[some 0], [some 2]] 2 1
          (assignLabels [[some 0], [some 2]] [[some 0], [some 2]]))
        (assignLabels [[some 0], [some 2]]
          (updateCenters [[some 0], [some 2]] 2 1
            (assignLabels [[some 0], [some 2]] [[some 0], [some 2]])))
      ≤ ssd [[some 0], [some 2]] [[some 0], [some 2]]
          (assignLabels [[some 0], [some 2]] [[some 0], [some 2]]) :=
  ⟨find_clusters_ssd_monotone.1 [[some 0], [some 2], [some 10], [some 12]] 2 0 9 1
      [[some 1], [some 11]] [0, 0, 1, 1] 2 (by with_unfolding_all decide)
      (by with_unfolding_all rfl),
   find_clusters_ssd_monotone.2 [[some 0], [some 2]] [[some 0], [some 2]] 2 1 rfl
      (by with_unfolding_all decide) (by with_unfolding_all decide) (by simp)
      (by with_unfolding_all decide)⟩

/-- C7: two calls with identical `(PointSet, K, seed)` arguments (and fuel)
return identical results; the computation neither reads nor writes the ambient
process state (numpy's global RNG), because the source builds a fresh local
`RandomState(rseed)`. -/
theorem find_clusters_deterministic_pure :
    ∀ (g g' : Nat) (X : List Point) (K s fuel : Nat),
      (find_clusters_global g X K s fuel).1 = (find_clusters_global g' X K s fuel).1 ∧
      (find_clusters_global g X K s fuel).2 = g ∧
      (find_clusters_global g X K s fuel).1 = find_clusters X K s fuel :=
  fun _ _ _ _ _ _ => ⟨rfl, rfl, rfl⟩

/-- C10: if an iteration's update step empties cluster `k`, the recomputed
center for `k` is the mean of an empty set — a row of NaNs — the exact-equality
convergence test `np.all(centers == new_centers)` is `False` at that iteration
(and NaN is never equal to itself at any later comparison), and the loop can
never exit through its convergence check: no amount of fuel makes it return
normally. -/
theorem kloop_nan_never_converges (X C : List Point) (K D i k : Nat)
    (hp : pairwise_distances_argmin X C = .ok (assignLabels X C))
    (hk : k < K) (hD : D ≠ 0)
    (hsel : selectLabeled X (assignLabels X C) k = []) :
    (updateCenters X K D (assignLabels X C)).getD k [] = List.replicate D none ∧
    centersEq C (updateCenters X K D (assignLabels X C)) = false ∧
    (∀ fuel r, kloop X K D C i fuel ≠ some (.ok r)) := by
  obtain ⟨h1, h2, _, _⟩ := kloop_empty_cluster X C K D i k hp hk hD hsel
  exact ⟨updateCenters_nan_row X K D (assignLabels X C) k hk hsel, h1, h2⟩

/-- C10 witness: from centers `[[0],[0]]` on `X = [[0],[1]]` cluster 1 is
empty, its recomputed center is `[NaN]`, and the convergence test fails. -/
theorem kloop_nan_never_converges_witness :
    (updateCenters [[some 0], [some 1]] 2 1
        (assignLabels [[some 0], [some 1]] [[some 0], [some 0]])).getD 1 []
      = List.replicate 1 none ∧
    centersEq [[some 0], [some 0]]
        (updateCenters [[some 0], [some 1]] 2 1
          (assignLabels [[some 0], [some 1]] [[some 0], [some 0]])) = false := by
  have h := kloop_nan_never_converges [[some 0], [some 1]] [[some 0], [some 0]] 2 1 0 1
    (by with_unfolding_all rfl) (by omega) (by omega) (by with_unfolding_all rfl)
  exact ⟨h.1, h.2.1⟩

/-- C3 (amended): when a cluster's assigned point set becomes empty during the
update step, `find_clusters` does not fail with a typed `DegenerateCluster`
condition — the NaN centers produced by the empty mean make the next assignment
call raise sklearn's generic `ValueError`, so the run never returns normally;
in particular a NaN centroid is never handed back to the caller: every normally
returned CentroidSet is entirely finite. -/
theorem find_clusters_empty_cluster_raises :
    (∀ (X C : List Point) (K D i k : Nat),
      pairwise_distances_argmin X C = .ok (assignLabels X C) →
      k < K → D ≠ 0 →
      selectLabeled X (assignLabels X C) k = [] →
      (∀ fuel r, kloop X K D C i fuel ≠ some (.ok r)) ∧
      (∀ fuel, 2 ≤ fuel → kloop X K D C i fuel = some (.error .valueErrorNonFinite)))
    ∧ (∀ (X : List Point) (K s fuel : Nat) (centers : List Point) (labels : List Nat)
        (iters : Nat),
        find_clusters X K s fuel = some (.ok (centers, labels, iters)) →
        finiteM centers = true) := by
  constructor
  · intro X C K D i k hp hk hD hsel
    obtain ⟨_, h2, h3, _⟩ := kloop_empty_cluster X C K D i k hp hk hD hsel
    exact ⟨h2, h3⟩
  · intro X K s fuel centers labels iters h
    rw [find_clusters_def] at h
    obtain ⟨hp, _⟩ := kloop_ok_break fuel h
    obtain ⟨_, _, _, _, hCf, _, _⟩ := pairwise_ok_elim hp
    exact hCf

/-- C3 witness: a concrete degenerate state fails with the library error after
two passes, and a concrete normal return's centroids are all finite. -/
theorem find_clusters_empty_cluster_raises_witness :
    kloop [[some 0], [some 1]] 2 1 [[some 0], [some 0]] 0 2
      = some (.error .valueErrorNonFinite) ∧
    finiteM [[some 1], [some 11]] = true :=
  ⟨(find_clusters_empty_cluster_raises.1 [[some 0], [some 1]] [[some 0], [some 0]] 2 1 0 1
      (by with_unfolding_all rfl) (by omega) (by omega) (by with_unfolding_all rfl)).2
      2 (by omega),
   find_clusters_empty_cluster_raises.2 [[some 0], [some 2], [some 10], [some 12]] 2 0 9
      [[some 1], [some 11]] [0, 0, 1, 1] 2 (by with_unfolding_all rfl)⟩

/-- C3 counterexample: on `X = [[0],[0]]`, `K = 2` cluster 1 is emptied by the
first update; the run fails with the library `ValueError`, which is not a typed
`DegenerateCluster` condition. -/
theorem find_clusters_empty_cluster_counterexample :
    find_clusters [[some 0], [some 0]] 2 0 350 = some (.error .valueErrorNonFinite) ∧
    KError.valueErrorNonFinite ≠ KError.degenerateCluster :=
  ⟨by with_unfolding_all rfl, by decide⟩

theorem perm_pair_eq {l : List Nat} (h : List.Perm l [0, 1]) : l = [0, 1] ∨ l = [1, 0] := by
  have hlen : l.length = 2 := by simpa using h.length_eq
  cases l with
  | nil => simp at hlen
  | cons a t =>
    cases t with
    | nil => simp at hlen
    | cons b u =>
      cases u with
      | cons c v => simp at hlen
      | nil =>
        have ha : a ∈ ([0, 1] : List Nat) := h.mem_iff.mp (by simp)
        have hb : b ∈ ([0, 1] : List Nat) := h.mem_iff.mp (by simp)
        have hnd : ([a, b] : List Nat).Nodup := h.nodup_iff.mpr (by decide)
        have hab : a ≠ b := by
          simp [List.nodup_cons] at hnd
          exact hnd
        simp only [List.mem_cons, List.mem_singleton, List.not_mem_nil, or_false] at ha hb
        rcases ha with rfl | rfl <;> rcases hb with rfl | rfl <;> simp_all

theorem initCentroids_pair_dup (s : Nat) :
    initCentroids [[some 0], [some 0]] 2 s = [[some 0], [some 0]] := by
  have htake : initIndices s 2 2 = permutation s 2 := by
    rw [initIndices]
    apply List.take_of_length_le
    rw [permutation_length]
  have hperm : List.Perm (permutation s 2) ([0, 1] : List Nat) := by
    have := permutation_perm s 2
    simpa [List.range_succ] using this
  rcases perm_pair_eq hperm with hcase | hcase <;>
    simp [initCentroids, initIndices, htake, hcase]

/-- C4 (amended): the loop has no iteration cap and returns no convergence
flag; a run either exits through the exact-equality test or fails.  On the
two-identical-points input with `K = 2` (every seed), initialization duplicates
the centroid, the first update empties cluster 1, and the run never returns a
result for any fuel — given at least two passes it raises the library
`ValueError` instead of returning a flagged best-so-far result. -/
theorem find_clusters_unbounded_no_flag :
    ∀ (s fuel : Nat),
      (∀ r, find_clusters [[some 0], [some 0]] 2 s fuel ≠ some (.ok r)) ∧
      (2 ≤ fuel →
        find_clusters [[some 0], [some 0]] 2 s fuel
          = some (.error .valueErrorNonFinite)) := by
  intro s fuel
  have hinit := initCentroids_pair_dup s
  have hD : (([[some 0], [some 0]] : List Point).headD []).length = 1 := rfl
  have hp : pairwise_distances_argmin [[some 0], [some 0]] [[some 0], [some 0]]
      = .ok (assignLabels [[some 0], [some 0]] [[some 0], [some 0]]) := by
    with_unfolding_all rfl
  have hsel : selectLabeled [[some 0], [some 0]]
      (assignLabels [[some 0], [some 0]] [[some 0], [some 0]]) 1 = [] := by
    with_unfolding_all rfl
  obtain ⟨_, h2, h3, _⟩ := kloop_empty_cluster [[some 0], [some 0]] [[some 0], [some 0]]
    2 1 0 1 hp (by omega) (by omega) hsel
  constructor
  · intro r
    rw [find_clusters_def, hinit, hD]
    exact h2 fuel r
  · intro hf
    rw [find_clusters_def, hinit, hD]
    exact h3 fuel hf

/-- C4 witness. -/
theorem find_clusters_unbounded_no_flag_witness :
    find_clusters [[some 0], [some 0]] 2 5 7 = some (.error .valueErrorNonFinite) :=
  (find_clusters_unbounded_no_flag 5 7).2 (by omega)

/-- C4 counterexample: with fuel far beyond the claimed default cap of 300, the
degenerate run returns the library error — no best-so-far result, no
`converged=false` flag. -/
theorem find_clusters_unbounded_counterexample :
    find_clusters [[some 0], [some 0]] 2 0 400 = some (.error .valueErrorNonFinite) := by
  with_unfolding_all rfl

/-- C5 (amended): for `K > N` the code performs no validation and raises no
`InvalidConfiguration`: slicing truncates the permutation to `N` initial
centroids, a full first iteration runs (fuel 1 is exhausted still looping), and
the `K − N` empty clusters then produce NaN centers on which the second
assignment call raises the library `ValueError`; the run never returns a
result. -/
theorem find_clusters_K_gt_N (X : List Point) (K s D : Nat)
    (hKN : X.length < K) (hXf : finiteM X = true) (hXne : X ≠ [])
    (hXd : ∀ p ∈ X, p.length = D) (hD : D ≠ 0) :
    find_clusters X K s 1 = none ∧
    (∀ fuel r, find_clusters X K s fuel ≠ some (.ok r)) ∧
    (∀ fuel, 2 ≤ fuel →
      find_clusters X K s fuel = some (.error .valueErrorNonFinite)) := by
  have hDhead : (X.headD []).length = D := headD_length_eq hXd hXne
  have hC0len : (initCentroids X K s).length = X.length := by
    rw [initCentroids_length]
    omega
  have hC0sub := initCentroids_mem X K s
  have hC0d : ∀ c ∈ initCentroids X K s, c.length = D := fun c hc => hXd c (hC0sub c hc)
  have hC0f : finiteM (initCentroids X K s) = true := finiteM_of_subset hC0sub hXf
  have hC0ne : initCentroids X K s ≠ [] := by
    intro hcontra
    rw [hcontra] at hC0len
    simp only [List.length_nil] at hC0len
    cases X with
    | nil => exact hXne rfl
    | cons a t => simp at hC0len
  have hC0head : ((initCentroids X K s).headD []).length ≠ 0 := by
    rw [headD_length_eq hC0d hC0ne]
    exact hD
  have hp : pairwise_distances_argmin X (initCentroids X K s)
      = .ok (assignLabels X (initCentroids X K s)) :=
    pairwise_ok_intro hXf hXne (by rw [hDhead]; exact hD) hC0f hC0ne hC0head
  have hsel : selectLabeled X (assignLabels X (initCentroids X K s)) X.length = [] := by
    apply selectLabeled_empty_of_ge
    intro l hl
    have := assignLabels_lt X (initCentroids X K s) hC0ne l hl
    omega
  obtain ⟨_, h2, h3, h4⟩ := kloop_empty_cluster X (initCentroids X K s) K D 0 X.length hp
    hKN hD hsel
  refine ⟨?_, ?_, ?_⟩
  · rw [find_clusters_def, hDhead]
    exact h4
  · intro fuel r
    rw [find_clusters_def, hDhead]
    exact h2 fuel r
  · intro fuel hf
    rw [find_clusters_def, hDhead]
    exact h3 fuel hf

/-- C5 witness. -/
theorem find_clusters_K_gt_N_witness :
    find_clusters [[some 0], [some 1], [some 2], [some 3], [some 4]] 7 0 3
      = some (.error .valueErrorNonFinite) :=
  ((find_clusters_K_gt_N [[some 0], [some 1], [some 2], [some 3], [some 4]] 7 0 1
      (by decide) (by with_unfolding_all rfl) (by simp) (by with_unfolding_all decide)
      (by omega)).2.2) 3 (by omega)

/-- C5 counterexample: `N = 5`, `K = 7`: after one full iteration the run has
not failed (fuel 1 is exhausted mid-loop, so an iteration was performed), and
when it does fail it is with the library `ValueError`, not with
`InvalidConfiguration` before any iteration. -/
theorem find_clusters_K_gt_N_counterexample :
    find_clusters [[some 0], [some 1], [some 2], [some 3], [some 4]] 7 0 1 = none ∧
    find_clusters [[some 0], [some 1], [some 2], [some 3], [some 4]] 7 0 2
      = some (.error .valueErrorNonFinite) ∧
    KError.valueErrorNonFinite ≠ KError.invalidConfiguration :=
  ⟨by with_unfolding_all rfl, by with_unfolding_all rfl, by decide⟩

/-- C6 (amended): a non-finite coordinate is not rejected by the clusterer
itself with a typed `InvalidInput` at entry; seeded initialization is performed
and the first assignment step's library input check rejects the array, so every
run on such input (given at least one pass) fails with the library's generic
`ValueError`. -/
theorem find_clusters_nonfinite_input (X : List Point) (K s fuel : Nat)
    (hX : finiteM X = false) (hf : 1 ≤ fuel) :
    find_clusters X K s fuel = some (.error .valueErrorNonFinite) := by
  cases fuel with
  | zero => omega
  | succ f =>
    rw [find_clusters_def]
    apply kloop_succ_err
    rw [pairwise_distances_argmin, check_array_nonfinite hX]

/-- C6 witness. -/
theorem find_clusters_nonfinite_input_witness :
    find_clusters [[none]] 1 0 1 = some (.error .valueErrorNonFinite) :=
  find_clusters_nonfinite_input [[none]] 1 0 1 rfl (by omega)

/-- C6 counterexample: a NaN coordinate makes the run fail with the library
`ValueError`, which is not a typed `InvalidInput` of the clusterer. -/
theorem find_clusters_nonfinite_counterexample :
    find_clusters [[none, some 1]] 1 0 5 = some (.error .valueErrorNonFinite) ∧
    KError.valueErrorNonFinite ≠ KError.invalidInput :=
  ⟨by with_unfolding_all rfl, by decide⟩

/-- C8 (amended): with `K = 1` on a nonempty finite input the run terminates
and the single returned centroid is the exact componentwise arithmetic mean of
all points; but convergence takes one or two passes of the loop, not always
exactly one — one pass exactly when the seeded initial centroid already equals
the mean, two otherwise (one updating pass plus one confirming pass). -/
theorem find_clusters_K1_mean (X : List Point) (s fuel D : Nat)
    (hXne : X ≠ []) (hXf : finiteM X = true) (hXd : ∀ p ∈ X, p.length = D) (hD : D ≠ 0)
    (hf : 2 ≤ fuel) :
    find_clusters X 1 s fuel
        = some (.ok ([(qmean (X.map toQ) D).map some], List.replicate X.length 0, 1))
    ∨ find_clusters X 1 s fuel
        = some (.ok ([(qmean (X.map toQ) D).map some], List.replicate X.length 0, 2)) := by
  obtain ⟨f, rfl⟩ : ∃ f, fuel = f + 2 := ⟨fuel - 2, by omega⟩
  have hDhead : (X.headD []).length = D := headD_length_eq hXd hXne
  have hC0len : (initCentroids X 1 s).length = 1 := by
    rw [initCentroids_length]
    cases X with
    | nil => exact absurd rfl hXne
    | cons a t => simp
  obtain ⟨c0, hC0⟩ : ∃ c0, initCentroids X 1 s = [c0] := by
    cases hC : initCentroids X 1 s with
    | nil => rw [hC] at hC0len; simp at hC0len
    | cons a t =>
      cases t with
      | nil => exact ⟨a, rfl⟩
      | cons b u => rw [hC] at hC0len; simp at hC0len
  have hc0X : c0 ∈ X := by
    apply initCentroids_mem X 1 s
    rw [hC0]
    simp
  have hc0f : finiteP c0 = true := finiteP_of_mem hXf hc0X
  have hc0d : c0.length = D := hXd c0 hc0X
  have hmf : finiteP ((qmean (X.map toQ) D).map some) = true := finiteP_map_some _
  have hmlen : ((qmean (X.map toQ) D).map some).length = D := by
    rw [List.length_map, qmean_length]
  have hupd : ∀ (c : Point), updateCenters X 1 D (assignLabels X [c])
      = [(qmean (X.map toQ) D).map some] := by
    intro c
    rw [assignLabels_singleton, updateCenters]
    have h01 : List.range 1 = [0] := rfl
    rw [h01, List.map_singleton, selectLabeled_zero_replicate, clusterMean_of_ne X D hXne]
  have hXhead0 : (X.headD []).length ≠ 0 := by
    rw [hDhead]
    exact hD
  have hpc0 : pairwise_distances_argmin X [c0] = .ok (assignLabels X [c0]) := by
    apply pairwise_ok_intro hXf hXne hXhead0
    · simp [finiteM, hc0f]
    · simp
    · simp [hc0d]
      exact hD
  have hpm : pairwise_distances_argmin X [(qmean (X.map toQ) D).map some]
      = .ok (assignLabels X [(qmean (X.map toQ) D).map some]) := by
    apply pairwise_ok_intro hXf hXne hXhead0
    · simp [finiteM, hmf]
    · simp
    · simp [hmlen]
      exact hD
  rw [find_clusters_def, hDhead, hC0]
  by_cases hconv : centersEq [c0] (updateCenters X 1 D (assignLabels X [c0])) = true
  · left
    rw [kloop_succ_ok X 1 D [c0] 0 (f + 1) hpc0, if_pos hconv]
    have hceq := centersEq_eq hconv
    rw [hupd c0] at hceq
    rw [hceq, assignLabels_singleton]
  · right
    rw [kloop_succ_ok X 1 D [c0] 0 (f + 1) hpc0, if_neg hconv, hupd c0]
    have hconv2 : centersEq [(qmean (X.map toQ) D).map some]
        (updateCenters X 1 D (assignLabels X [(qmean (X.map toQ) D).map some])) = true := by
      rw [hupd ((qmean (X.map toQ) D).map some)]
      apply centersEq_refl_finite
      simp [finiteM, hmf]
    rw [kloop_succ_ok X 1 D [(qmean (X.map toQ) D).map some] (0 + 1) f hpm, if_pos hconv2,
      assignLabels_singleton]

/-- C8 witness: a concrete `K = 1` run returning the exact mean. -/
theorem find_clusters_K1_mean_witness :
    find_clusters [[some 0], [some 2]] 1 0 5
        = some (.ok ([(qmean (([[some 0], [some 2]] : List Point).map toQ) 1).map some],
            List.replicate 2 0, 1))
    ∨ find_clusters [[some 0], [some 2]] 1 0 5
        = some (.ok ([(qmean (([[some 0], [some 2]] : List Point).map toQ) 1).map some],
            List.replicate 2 0, 2)) := by
  have h := find_clusters_K1_mean [[some 0], [some 2]] 0 5 1 (by simp)
    (by with_unfolding_all rfl) (by with_unfolding_all decide) (by omega) (by omega)
  exact h

/-- C8 counterexample: `X = [[0],[2]]`, `K = 1`, `rseed = 0`: the run converges
with centroid `[1]` (the exact mean) but in 2 iterations, not exactly 1. -/
theorem find_clusters_K1_counterexample :
    find_clusters [[some 0], [some 2]] 1 0 5 = some (.ok ([[some 1]], [0, 0], 2)) ∧
    (2 : Nat) ≠ 1 :=
  ⟨by with_unfolding_all rfl, by omega⟩

/-- C9 (amended): for `K ≤ N` the initial CentroidSet is the list of rows of
the PointSet at the first `K` entries of the seeded permutation: the `K`
indices are pairwise distinct and in range, and each initial centroid is a
member of the PointSet (the choice being a function of the seed alone); the
centroids themselves need not be pairwise distinct points when the PointSet
contains duplicate points. -/
theorem initCentroids_spec (X : List Point) (K s : Nat) (hK : K ≤ X.length) :
    (initIndices s X.length K).Nodup ∧
    (initIndices s X.length K).length = K ∧
    (∀ i ∈ initIndices s X.length K, i < X.length) ∧
    (initCentroids X K s).length = K ∧
    (∀ c ∈ initCentroids X K s, c ∈ X) := by
  refine ⟨initIndices_nodup s X.length K, ?_, initIndices_mem_lt s X.length K, ?_,
    initCentroids_mem X K s⟩
  · rw [initIndices_length]
    omega
  · rw [initCentroids_length]
    omega

/-- C9 witness. -/
theorem initCentroids_spec_witness :
    (initIndices 0 5 2).length = 2 ∧ (initIndices 0 5 2).Nodup := by
  have h := initCentroids_spec [[some 0], [some 1], [some 2], [some 3], [some 4]] 2 0
    (by decide)
  exact ⟨h.2.1, h.1⟩

/-- C9 counterexample: on the duplicate PointSet `[[0],[0]]` with `K = 2` the
initial centroids are the rows at two distinct indices, but as points they are
equal: the initial CentroidSet does not consist of 2 distinct points. -/
theorem initCentroids_dup_counterexample :
    initCentroids [[some 0], [some 0]] 2 0 = [[some 0], [some 0]] ∧
    ¬ (initCentroids [[some 0], [some 0]] 2 0).Nodup := by
  constructor
  · with_unfolding_all rfl
  · with_unfolding_all decide
